import Mathlib

/-!
Verification of the multi-source lender merge (`merge_all_lenders.js`) and the
event classifier (`analyze_selectors.js`) of the squid-dao-reconstruction-proposal
repository, as a shallow embedding in Lean 4.

Modelling conventions:
* JavaScript numbers are modelled as `Option ℚ`: `some q` is an ordinary finite
  number, `none` models `NaN` (in particular the result of `parseFloat` on a
  string that cannot be parsed as a number).  All arithmetic propagates `none`,
  and every comparison involving `none` is `false`, matching IEEE/JS `NaN`
  semantics for the operations the scripts use.
* The script's input records carry `shares : JSNum`, the result of
  `parseFloat(h.shares)` on the raw JSON string field.
* The mutable `merged` JavaScript `Map` is modelled as an insertion-ordered
  association list from lowercased address keys to records; `Map.values()`
  iteration order is the append order of that list.
* `Array.prototype.sort` with the comparator
  `(a, b) => b.total_crvusd_value - a.total_crvusd_value` is modelled as a
  stable insertion sort that orders records by non-increasing
  `total_crvusd_value`.
* `Number.prototype.toFixed` is modelled as a decimal rendering of the exact
  rational; digit-level double-precision behaviour is out of scope of the
  claims treated here.
-/

namespace SquidDAO

/-- JavaScript number: `some q` is a finite value, `none` models `NaN`. -/
abbrev JSNum := Option ℚ

/-- JS addition: `NaN` propagates. -/
def jsAdd : JSNum → JSNum → JSNum
  | some a, some b => some (a + b)
  | _, _ => none

/-- JS multiplication: `NaN` propagates. -/
def jsMul : JSNum → JSNum → JSNum
  | some a, some b => some (a * b)
  | _, _ => none

/-- JS division, restricted to the finite cases the claims need: division by
zero and any `NaN` operand yield the non-finite result `none`. -/
def jsDiv : JSNum → JSNum → JSNum
  | some a, some b => if b = 0 then none else some (a / b)
  | _, _ => none

/-- JS `<=` comparison as used in `if (shares <= 0) continue`; any comparison
with `NaN` is `false`. -/
def jsLe : JSNum → JSNum → Bool
  | some a, some b => decide (a ≤ b)
  | _, _ => false

/-- JS `>=` comparison (used to express the descending sort order). -/
def jsGe : JSNum → JSNum → Bool
  | some a, some b => decide (b ≤ a)
  | _, _ => false

/-- Decimal rendering of a JS number with `n` fractional digits, modelling
`Number.prototype.toFixed(n)`; `NaN` renders as `"NaN"`. -/
def toFixed (n : Nat) (x : JSNum) : String :=
  match x with
  | none => "NaN"
  | some q =>
    let m : Int := Int.floor (q * (10 : ℚ) ^ n + 1 / 2)
    let sign := if m < 0 then "-" else ""
    let a := m.natAbs
    let ip := a / 10 ^ n
    let fp := a % 10 ^ n
    if n = 0 then sign ++ toString ip
    else
      let s := toString fp
      sign ++ toString ip ++ "." ++ String.mk (List.replicate (n - s.length) '0') ++ s

/-- JS `String.prototype.toLowerCase`, as applied to address strings:
lowercase every character. -/
def jsToLower (s : String) : String := String.mk (s.data.map Char.toLower)

/-- The three source categories of `merge_all_lenders.js`. -/
inductive Src : Type
  | direct_vault
  | convex
  | direct_gauge
deriving DecidableEq, Repr

/-- One per-source position: `{ shares, crvusd_value }`. -/
structure Position where
  shares : JSNum
  crvusd_value : JSNum
deriving DecidableEq, Repr

/-- A merged per-address record, mirroring the object built by `getOrCreate`:
display address (first-seen casing), the three optional per-source positions,
running share/value totals, the formatted vault percentage and the ordered
list of contributing sources. -/
structure MRec where
  address : String
  direct_vault : Option Position
  convex : Option Position
  direct_gauge : Option Position
  total_shares : JSNum
  total_crvusd_value : JSNum
  pct_of_vault : String
  sources : List Src
deriving DecidableEq, Repr

/-- The blank record created by `getOrCreate` for a new address. -/
def blankRec (addr : String) : MRec :=
  { address := addr
    direct_vault := none
    convex := none
    direct_gauge := none
    total_shares := some 0
    total_crvusd_value := some 0
    pct_of_vault := "0.00"
    sources := [] }

/-- Read the position slot of a record for a given source category. -/
def getPos (s : Src) (r : MRec) : Option Position :=
  match s with
  | .direct_vault => r.direct_vault
  | .convex => r.convex
  | .direct_gauge => r.direct_gauge

/-- Overwrite the position slot of a record for a given source category. -/
def setPos (s : Src) (p : Position) (r : MRec) : MRec :=
  match s with
  | .direct_vault => { r with direct_vault := some p }
  | .convex => { r with convex := some p }
  | .direct_gauge => { r with direct_gauge := some p }

/-- The mutation performed by each ingest loop body on the record returned by
`getOrCreate`: store the position for the loop's category, add shares and value
to the running totals, and append the category to `sources` if absent. -/
def addPos (s : Src) (sh v : JSNum) (r : MRec) : MRec :=
  let r1 := setPos s ⟨sh, v⟩ r
  { r1 with
    total_shares := jsAdd r1.total_shares sh
    total_crvusd_value := jsAdd r1.total_crvusd_value v
    sources := if s ∈ r1.sources then r1.sources else r1.sources ++ [s] }

/-- The accumulator `merged` Map: insertion-ordered list of
(lowercased key, record) pairs. -/
abbrev MState := List (String × MRec)

/-- Lookup by key in the accumulator (JS `Map.get` / `Map.has`). -/
def lookupA (k : String) : MState → Option MRec
  | [] => none
  | p :: t => if p.1 = k then some p.2 else lookupA k t

/-- The `getOrCreate` creation half: if the lowercased key is absent, append a
blank record preserving the originally supplied casing as display address. -/
def ensureKey (addr : String) (st : MState) : MState :=
  if (lookupA (jsToLower addr) st).isSome then st
  else st ++ [(jsToLower addr, blankRec addr)]

/-- In-place update of the record stored under a key (JS object mutation). -/
def updateKey (k : String) (f : MRec → MRec) : MState → MState
  | [] => []
  | p :: t => if p.1 = k then (p.1, f p.2) :: updateKey k f t else p :: updateKey k f t

/-- One raw input record: address string and the result of
`parseFloat(h.shares)` (`none` models `NaN` from an unparseable string). -/
structure InputRec where
  address : String
  shares : JSNum
deriving DecidableEq, Repr

/-- One iteration of an ingest loop of `merge_all_lenders.js`.  The three
loops are textually identical up to the target category except that only the
direct-vault loop has the `EXCLUDED_CONTRACTS` guard, which is expressed here
by conditioning the exclusion check on `s = direct_vault`:

  const shares = parseFloat(h.shares);
  if (shares <= 0) continue;
  if (EXCLUDED_CONTRACTS.has(h.address.toLowerCase())) continue;   // loop 1 only
  const rec = getOrCreate(h.address);
  const crvusdValue = shares * pricePerShare;
  rec.positions[s] = \x7b shares, crvusd_value: crvusdValue \x7d;
  rec.total_shares += shares;
  rec.total_crvusd_value += crvusdValue;
  if (!rec.sources.includes(s)) rec.sources.push(s);
-/
def ingestOne (excl : List String) (pps : JSNum) (s : Src) (st : MState) (h : InputRec) : MState :=
  if jsLe h.shares (some 0) then st
  else if s = Src.direct_vault ∧ jsToLower h.address ∈ excl then st
  else
    updateKey (jsToLower h.address) (addPos s h.shares (jsMul h.shares pps)) (ensureKey h.address st)

/-- All inputs of the merge: the three source sequences, the raw excluded
contract addresses, the parsed vault reference scalars and the metadata
strings that are copied verbatim into the output. -/
structure MergeInputs where
  holders : List InputRec
  convex_active_holders : List InputRec
  direct_gauge_stakers : List InputRec
  excluded_raw : List String
  price_per_share : JSNum
  total_supply_shares : JSNum
  total_assets_crvusd : JSNum
  lender_timestamp : String
  convex_timestamp : String
  vault_address : String
  total_supply_shares_str : String
  total_assets_crvusd_str : String
  price_per_share_str : String
  block : Nat
  chain : String
deriving DecidableEq, Repr

/-- The `EXCLUDED_CONTRACTS` set: the configured contract addresses, lowercased. -/
def excludedSet (inp : MergeInputs) : List String :=
  inp.excluded_raw.map jsToLower

/-- The accumulator state after the three ingest loops have run in their fixed
order: direct vault holders, then Convex depositors, then direct gauge
stakers. -/
def mergeState (inp : MergeInputs) : MState :=
  let s1 := inp.holders.foldl
    (ingestOne (excludedSet inp) inp.price_per_share Src.direct_vault) []
  let s2 := inp.convex_active_holders.foldl
    (ingestOne (excludedSet inp) inp.price_per_share Src.convex) s1
  inp.direct_gauge_stakers.foldl
    (ingestOne (excludedSet inp) inp.price_per_share Src.direct_gauge) s2

/-- The `pct_of_vault` pass: for every record,
`rec.pct_of_vault = ((rec.total_shares / totalVaultShares) * 100).toFixed(2)`. -/
def withPct (tvs : JSNum) (st : MState) : MState :=
  st.map fun p =>
    (p.1, { p.2 with pct_of_vault := toFixed 2 (jsMul (jsDiv p.2.total_shares tvs) (some 100)) })

/-- The list `[...merged.values()]` after the percentage pass: the records in
insertion order. -/
def mergedRecs (inp : MergeInputs) : List MRec :=
  ((withPct inp.total_supply_shares (mergeState inp)).map Prod.snd)

/-- Stable descending insertion: place `x` before the first element whose
total value it reaches (ties keep the earlier-inserted element first),
modelling the stable JS sort with comparator
`(a, b) => b.total_crvusd_value - a.total_crvusd_value`. -/
def insertDesc (x : MRec) : List MRec → List MRec
  | [] => [x]
  | y :: ys =>
    if jsGe x.total_crvusd_value y.total_crvusd_value then x :: y :: ys
    else y :: insertDesc x ys

/-- Stable sort by descending `total_crvusd_value`. -/
def sortDesc : List MRec → List MRec
  | [] => []
  | x :: xs => insertDesc x (sortDesc xs)

/-- The `sorted` array: the merged records sorted by total crvUSD value descending. -/
def sortedRecs (inp : MergeInputs) : List MRec :=
  sortDesc (mergedRecs inp)

/-- A formatted position in the output breakdown. -/
structure FmtPos where
  shares : String
  crvusd_value : String
deriving DecidableEq, Repr

/-- One entry of the output `lenders` array. -/
structure FmtLender where
  rank : Nat
  address : String
  total_shares : String
  total_crvusd_value : String
  pct_of_vault : String
  sources : List Src
  direct_vault : Option FmtPos
  convex : Option FmtPos
  direct_gauge : Option FmtPos
deriving DecidableEq, Repr

/-- Format shares with 18 decimal places (`fmtShares`). -/
def fmtShares (n : JSNum) : String := toFixed 18 n

/-- Format crvUSD values with 6 decimal places (`fmtCrvusd`). -/
def fmtCrvusd (n : JSNum) : String := toFixed 6 n

/-- Format one optional position; absent positions stay absent in the
breakdown. -/
def fmtPosOpt : Option Position → Option FmtPos
  | none => none
  | some p => some ⟨fmtShares p.shares, fmtCrvusd p.crvusd_value⟩

/-- Build one formatted lender entry with the given 1-based rank. -/
def fmtLender (rank : Nat) (r : MRec) : FmtLender :=
  { rank := rank
    address := r.address
    total_shares := fmtShares r.total_shares
    total_crvusd_value := fmtCrvusd r.total_crvusd_value
    pct_of_vault := r.pct_of_vault
    sources := r.sources
    direct_vault := fmtPosOpt r.direct_vault
    convex := fmtPosOpt r.convex
    direct_gauge := fmtPosOpt r.direct_gauge }

/-- The map `sorted.map((rec, idx) => ... rank: idx + 1 ...)`: assign ranks
`n+1, n+2, …` along the list. -/
def rankFrom (n : Nat) : List MRec → List FmtLender
  | [] => []
  | r :: rs => fmtLender (n + 1) r :: rankFrom (n + 1) rs

/-- The `formattedLenders` array: the ranked, formatted output list. -/
def formattedLenders (inp : MergeInputs) : List FmtLender :=
  rankFrom 0 (sortedRecs inp)

/-- Sum a JS-number-valued field over a list of records (a `reduce` with
initial value `0`). -/
def jsSumBy (f : MRec → JSNum) (l : List MRec) : JSNum :=
  l.foldl (fun acc r => jsAdd acc (f r)) (some 0)

/-- The `totalMergedShares` reduction. -/
def totalMergedShares (inp : MergeInputs) : JSNum :=
  jsSumBy (fun r => r.total_shares) (sortedRecs inp)

/-- The `totalMergedCrvusd` reduction. -/
def totalMergedCrvusd (inp : MergeInputs) : JSNum :=
  jsSumBy (fun r => r.total_crvusd_value) (sortedRecs inp)

/-- The `multiSourceCount` statistic: addresses appearing in more than one source. -/
def multiSourceCount (inp : MergeInputs) : Nat :=
  ((sortedRecs inp).filter (fun r => 1 < r.sources.length)).length

/-- Per-source participant count. -/
def srcCount (s : Src) (inp : MergeInputs) : Nat :=
  ((sortedRecs inp).filter (fun r => s ∈ r.sources)).length

/-- Per-source crvUSD value sum over the records holding that position. -/
def srcValue (s : Src) (inp : MergeInputs) : JSNum :=
  ((sortedRecs inp).filter (fun r => (getPos s r).isSome)).foldl
    (fun acc r => jsAdd acc (((getPos s r).map Position.crvusd_value).getD (some 0))) (some 0)

/-- One `by_source` summary entry. -/
structure SrcStat where
  count : Nat
  total_crvusd : String
deriving DecidableEq, Repr

/-- The output `summary` block. -/
structure Summary where
  unique_lenders : Nat
  multi_source_lenders : Nat
  total_tracked_shares : String
  total_tracked_crvusd : String
  coverage_pct : String
  direct_vault : SrcStat
  convex : SrcStat
  direct_gauge : SrcStat
deriving DecidableEq, Repr

/-- The output `vault` reference block (verbatim metadata strings). -/
structure VaultMeta where
  address : String
  total_supply_shares : String
  total_assets_crvusd : String
  price_per_share : String
  block : Nat
  chain : String
deriving DecidableEq, Repr

/-- The full output object written to `all_lenders.json`. -/
structure Output where
  generated_at : String
  description : String
  lender_data_timestamp : String
  convex_lender_data_timestamp : String
  vault : VaultMeta
  summary : Summary
  lenders : List FmtLender
deriving DecidableEq, Repr

/-- Build the `summary` block. -/
def buildSummary (inp : MergeInputs) : Summary :=
  { unique_lenders := (sortedRecs inp).length
    multi_source_lenders := multiSourceCount inp
    total_tracked_shares := fmtShares (totalMergedShares inp)
    total_tracked_crvusd := fmtCrvusd (totalMergedCrvusd inp)
    coverage_pct :=
      toFixed 2 (jsMul (jsDiv (totalMergedShares inp) inp.total_supply_shares) (some 100))
    direct_vault := ⟨srcCount .direct_vault inp, fmtCrvusd (srcValue .direct_vault inp)⟩
    convex := ⟨srcCount .convex inp, fmtCrvusd (srcValue .convex inp)⟩
    direct_gauge := ⟨srcCount .direct_gauge inp, fmtCrvusd (srcValue .direct_gauge inp)⟩ }

/-- Build the full output object; `now` is the `new Date().toISOString()`
timestamp, the only run-dependent datum. -/
def buildOutput (now : String) (inp : MergeInputs) : Output :=
  { generated_at := now
    description := "Unified lender view merging direct vault holders, Convex depositors, and direct gauge stakers. Addresses appearing in multiple categories have their positions summed."
    lender_data_timestamp := inp.lender_timestamp
    convex_lender_data_timestamp := inp.convex_timestamp
    vault :=
      { address := inp.vault_address
        total_supply_shares := inp.total_supply_shares_str
        total_assets_crvusd := inp.total_assets_crvusd_str
        price_per_share := inp.price_per_share_str
        block := inp.block
        chain := inp.chain }
    summary := buildSummary inp
    lenders := formattedLenders inp }

/-! ### Event classifier (`analyze_selectors.js`) -/

/-- One function-call record of `investigate_leverage_results.json` as read by
`analyze_selectors.js`; only the fields the classification and accumulation
logic uses are modelled (the pass-through display fields `isSam`, `samWallet`,
the per-event timeline entries and the timestamp ordering are print-only). -/
structure BorrowEvent where
  functionSelector : String
  totalLogCount : Nat
  transferCount : Nat
  collateral_increase_squid : ℚ
  loan_increase_crvusd : ℚ
deriving DecidableEq, Repr

/-- The fixed `OBSERVED_SELECTORS` lookup table. -/
def OBSERVED_SELECTORS : List (String × String) :=
  [ ("0x23cfed03", "create_loan (standard)")
  , ("0x4ba96d46", "create_loan_extended (LEVERAGE)")
  , ("0x24977ef3", "borrow_more_extended (LEVERAGE)")
  , ("0xdd171e7c", "borrow_more (standard)")
  , ("0x24049e57", "add_collateral (no borrow)") ]

/-- First-match lookup in the selector table. -/
def selLookup (sel : String) : List (String × String) → Option String
  | [] => none
  | p :: t => if p.1 = sel then some p.2 else selLookup sel t

/-- The lookup `OBSERVED_SELECTORS[event.functionSelector] || 'UNKNOWN'`. -/
def classifySelector (sel : String) : String :=
  (selLookup sel OBSERVED_SELECTORS).getD "UNKNOWN"

/-- Character-list helper: does `sub` occur at the start of the second list? -/
def charsStart : List Char → List Char → Bool
  | [], _ => true
  | _ :: _, [] => false
  | a :: s, b :: t => a == b && charsStart s t

/-- Character-list helper: does `sub` occur contiguously anywhere in the
second list? -/
def charsWithin (sub : List Char) : List Char → Bool
  | [] => sub.isEmpty
  | c :: t => charsStart sub (c :: t) || charsWithin sub t

/-- JS `String.prototype.includes`: substring containment. -/
def jsIncludes (s sub : String) : Bool :=
  charsWithin sub.toList s.toList

/-- The test `classification.includes('LEVERAGE')`. -/
def isLeverageLabel (c : String) : Bool := jsIncludes c "LEVERAGE"

/-- The log-count heuristic `event.totalLogCount > 10`. -/
def isExtendedEvent (e : BorrowEvent) : Bool := decide (10 < e.totalLogCount)

/-- The cross-check: a warning is printed exactly when the table classifies
the event as leverage but the log count is not above 10. -/
def warnsLeverageMismatch (e : BorrowEvent) : Bool :=
  isLeverageLabel (classifySelector e.functionSelector) && !(isExtendedEvent e)

/-- Per-borrower numeric accumulator fields of `borrowerSummary`. -/
structure Borrower where
  totalCollateralDeposited : ℚ
  totalCrvUSDBorrowed : ℚ
  leverageCollateral : ℚ
  leverageBorrowed : ℚ
  standardCollateral : ℚ
  standardBorrowed : ℚ
  leverageCount : Nat
  standardCount : Nat
deriving DecidableEq, Repr

/-- The per-event accumulation of `analyze_selectors.js`: unconditional totals,
then the leverage branch when the label contains `LEVERAGE`, else the standard
branch when the label contains `borrow` or `create`, else nothing. -/
def updateBorrower (b : Borrower) (e : BorrowEvent) : Borrower :=
  let classification := classifySelector e.functionSelector
  let isLeverage := isLeverageLabel classification
  let b1 :=
    { b with
      totalCollateralDeposited := b.totalCollateralDeposited + e.collateral_increase_squid
      totalCrvUSDBorrowed := b.totalCrvUSDBorrowed + e.loan_increase_crvusd }
  if isLeverage then
    { b1 with
      leverageCollateral := b1.leverageCollateral + e.collateral_increase_squid
      leverageBorrowed := b1.leverageBorrowed + e.loan_increase_crvusd
      leverageCount := b1.leverageCount + 1 }
  else if jsIncludes classification "borrow" || jsIncludes classification "create" then
    { b1 with
      standardCollateral := b1.standardCollateral + e.collateral_increase_squid
      standardBorrowed := b1.standardBorrowed + e.loan_increase_crvusd
      standardCount := b1.standardCount + 1 }
  else b1

/-! ### Derived specification-level notions -/

/-- Conservation body: fold a position's contribution into a running JS sum;
an absent position contributes nothing. -/
def contrib (f : Position → JSNum) (acc : JSNum) : Option Position → JSNum
  | none => acc
  | some p => jsAdd acc (f p)

/-- The sum of a numeric field over the present positions of a record. -/
def posFieldSum (f : Position → JSNum) (r : MRec) : JSNum :=
  contrib f (contrib f (contrib f (some 0) r.direct_vault) r.convex) r.direct_gauge

/-- The conservation invariant of the spec: the running totals equal the sums
over the present positions. -/
def conserved (r : MRec) : Prop :=
  r.total_shares = posFieldSum Position.shares r ∧
  r.total_crvusd_value = posFieldSum Position.crvusd_value r

instance : DecidablePred conserved := fun r => by
  unfold conserved
  infer_instance

/-- The lowercased address keys of an input sequence. -/
def keysOf (l : List InputRec) : List String :=
  l.map (fun h => jsToLower h.address)

/-- The three input sequences in processing order, tagged with their source
category. -/
def taggedInputs (inp : MergeInputs) : List (Src × InputRec) :=
  inp.holders.map (fun h => (Src.direct_vault, h)) ++
    inp.convex_active_holders.map (fun h => (Src.convex, h)) ++
      inp.direct_gauge_stakers.map (fun h => (Src.direct_gauge, h))

/-- One step of the merge on a tagged record. -/
def stepT (excl : List String) (pps : JSNum) (st : MState) (sh : Src × InputRec) : MState :=
  ingestOne excl pps sh.1 st sh.2

/-- Does a tagged record pass the two ingestion guards (positive parsed
shares; not an excluded direct-vault address)? -/
def passesB (excl : List String) (sh : Src × InputRec) : Bool :=
  if jsLe sh.2.shares (some 0) then false
  else if sh.1 = Src.direct_vault ∧ jsToLower sh.2.address ∈ excl then false
  else true

/-- The first record, in processing order, that contributes to the given
case-insensitive address identity. -/
def firstContrib (excl : List String) (k : String) (l : List (Src × InputRec)) :
    Option (Src × InputRec) :=
  (l.filter (passesB excl)).find? (fun sh => decide (jsToLower sh.2.address = k))

/-! ### Arithmetic lemmas for JS numbers -/

theorem jsAdd_zero_left (x : JSNum) : jsAdd (some 0) x = x := by
  cases x <;> simp [jsAdd]

theorem jsAdd_right_comm (a b c : JSNum) :
    jsAdd (jsAdd a b) c = jsAdd (jsAdd a c) b := by
  cases a <;> cases b <;> cases c <;> simp [jsAdd] <;> ring

theorem jsAdd_isSome (a b : JSNum) (ha : a.isSome) (hb : b.isSome) :
    (jsAdd a b).isSome := by
  cases a <;> cases b <;> simp_all [jsAdd]

theorem jsMul_isSome (a b : JSNum) (ha : a.isSome) (hb : b.isSome) :
    (jsMul a b).isSome := by
  cases a <;> cases b <;> simp_all [jsMul]

theorem jsGe_total (a b : JSNum) (ha : a.isSome) (hb : b.isSome)
    (h : ¬ jsGe a b = true) : jsGe b a = true := by
  cases a <;> cases b <;> simp_all [jsGe]
  linarith

theorem jsGe_trans (a b c : JSNum) (hab : jsGe a b = true) (hbc : jsGe b c = true) :
    jsGe a c = true := by
  cases a <;> cases b <;> cases c <;> simp_all [jsGe]
  linarith

theorem jsAdd_comm (a b : JSNum) : jsAdd a b = jsAdd b a := by
  cases a <;> cases b <;> simp [jsAdd] <;> ring

theorem jsAdd_left_comm (a b c : JSNum) :
    jsAdd a (jsAdd b c) = jsAdd b (jsAdd a c) := by
  cases a <;> cases b <;> cases c <;> simp [jsAdd] <;> ring

theorem jsGe_asymm_ne (a b : JSNum) (ha : a.isSome) (hb : b.isSome)
    (h : ¬ jsGe a b = true) : ¬ b = a := by
  cases a with
  | none => simp at ha
  | some x =>
    cases b with
    | none => simp at hb
    | some y =>
      simp only [jsGe, decide_eq_true_eq] at h
      have hxy : x < y := lt_of_not_le h
      intro hEq
      have hyx : y = x := by injection hEq
      exact lt_irrefl x (hyx ▸ hxy)


/-! ### Record-level lemmas -/

theorem getPos_setPos_self (s : Src) (p : Position) (r : MRec) :
    getPos s (setPos s p r) = some p := by
  cases s <;> simp [getPos, setPos]

theorem getPos_setPos_ne (s s' : Src) (p : Position) (r : MRec) (h : s ≠ s') :
    getPos s' (setPos s p r) = getPos s' r := by
  cases s <;> cases s' <;> simp_all [getPos, setPos]

theorem getPos_addPos_self (s : Src) (sh v : JSNum) (r : MRec) :
    getPos s (addPos s sh v r) = some ⟨sh, v⟩ := by
  cases s <;> simp [getPos, setPos, addPos]

theorem getPos_addPos_ne (s s' : Src) (sh v : JSNum) (r : MRec) (h : s ≠ s') :
    getPos s' (addPos s sh v r) = getPos s' r := by
  cases s <;> cases s' <;> simp_all [getPos, setPos, addPos]

theorem address_addPos (s : Src) (sh v : JSNum) (r : MRec) :
    (addPos s sh v r).address = r.address := by
  cases s <;> simp [addPos, setPos]

theorem total_shares_addPos (s : Src) (sh v : JSNum) (r : MRec) :
    (addPos s sh v r).total_shares = jsAdd r.total_shares sh := by
  cases s <;> simp [addPos, setPos]

theorem total_value_addPos (s : Src) (sh v : JSNum) (r : MRec) :
    (addPos s sh v r).total_crvusd_value = jsAdd r.total_crvusd_value v := by
  cases s <;> simp [addPos, setPos]

theorem sources_addPos (s : Src) (sh v : JSNum) (r : MRec) :
    (addPos s sh v r).sources =
      if s ∈ r.sources then r.sources else r.sources ++ [s] := by
  cases s <;> simp [addPos, setPos]

theorem conserved_blank (addr : String) : conserved (blankRec addr) := by
  constructor <;> simp [blankRec, posFieldSum, contrib]

theorem conserved_addPos (s : Src) (sh v : JSNum) (r : MRec)
    (hnone : getPos s r = none) (hc : conserved r) :
    conserved (addPos s sh v r) := by
  obtain ⟨h1, h2⟩ := hc
  cases s <;>
    simp_all [conserved, addPos, setPos, posFieldSum, getPos] <;>
    constructor <;>
    cases r.direct_vault <;> cases r.convex <;> cases r.direct_gauge <;>
    simp_all [contrib, jsAdd_zero_left, jsAdd_comm, jsAdd_left_comm]

/-! ### Association-list lemmas -/

theorem lookupA_append (k : String) (st : MState) (p : String × MRec) :
    lookupA k (st ++ [p]) =
      match lookupA k st with
      | some r => some r
      | none => if p.1 = k then some p.2 else none := by
  induction st with
  | nil => simp [lookupA]
  | cons q t ih =>
    by_cases h : q.1 = k <;> simp [lookupA, h, ih]

theorem lookupA_updateKey (k k' : String) (f : MRec → MRec) (st : MState) :
    lookupA k (updateKey k' f st) =
      if k = k' then (lookupA k st).map f else lookupA k st := by
  induction st with
  | nil => by_cases hk : k = k' <;> simp [lookupA, updateKey, hk]
  | cons q t ih =>
    by_cases hq : q.1 = k'
    · by_cases hk : k = k'
      · subst hk
        simp [updateKey, lookupA, hq, ih]
      · have hqk : ¬ q.1 = k := by
          rw [hq]
          intro hc
          exact hk hc.symm
        have hk' : ¬ k' = k := fun hc => hk hc.symm
        simp [updateKey, lookupA, hq, hqk, hk, hk', ih]
    · by_cases hk : k = k'
      · subst hk
        simp [updateKey, lookupA, hq, ih]
      · simp [updateKey, lookupA, hq, hk, ih]

theorem fst_updateKey (k : String) (f : MRec → MRec) (st : MState) :
    (updateKey k f st).map Prod.fst = st.map Prod.fst := by
  induction st with
  | nil => simp [updateKey]
  | cons q t ih =>
    by_cases h : q.1 = k <;> simp [updateKey, h, ih]

theorem lookupA_eq_none (k : String) (st : MState) :
    lookupA k st = none ↔ k ∉ st.map Prod.fst := by
  induction st with
  | nil => simp [lookupA]
  | cons q t ih =>
    by_cases h : q.1 = k
    · simp [lookupA, h]
    · simp only [lookupA, if_neg h, List.map_cons, List.mem_cons]
      rw [ih]
      constructor
      · intro hn hc
        rcases hc with hc | hc
        · exact h hc.symm
        · exact hn hc
      · intro hn hc
        exact hn (Or.inr hc)

theorem mem_updateKey_elim (k : String) (f : MRec → MRec) (st : MState)
    (kr : String × MRec) (hmem : kr ∈ updateKey k f st) :
    (∃ r₀, (k, r₀) ∈ st ∧ kr = (k, f r₀)) ∨ (kr ∈ st ∧ ¬ kr.1 = k) := by
  induction st with
  | nil => simp [updateKey] at hmem
  | cons q t ih =>
    by_cases h : q.1 = k
    · simp only [updateKey, if_pos h] at hmem
      rcases List.mem_cons.mp hmem with h1 | h1
      · left
        exact ⟨q.2, by simp [h1, ← h], by simp [h1, h]⟩
      · rcases ih h1 with h2 | h2
        · left
          obtain ⟨r₀, hr₀, hkr⟩ := h2
          exact ⟨r₀, List.mem_cons_of_mem _ hr₀, hkr⟩
        · right
          exact ⟨List.mem_cons_of_mem _ h2.1, h2.2⟩
    · simp only [updateKey, if_neg h] at hmem
      rcases List.mem_cons.mp hmem with h1 | h1
      · right
        exact ⟨by simp [h1], by simp [h1, h]⟩
      · rcases ih h1 with h2 | h2
        · left
          obtain ⟨r₀, hr₀, hkr⟩ := h2
          exact ⟨r₀, List.mem_cons_of_mem _ hr₀, hkr⟩
        · right
          exact ⟨List.mem_cons_of_mem _ h2.1, h2.2⟩

theorem mem_ensureKey_elim (addr : String) (st : MState) (kr : String × MRec)
    (hmem : kr ∈ ensureKey addr st) :
    kr ∈ st ∨ kr = (jsToLower addr, blankRec addr) := by
  by_cases h : (lookupA (jsToLower addr) st).isSome
  · simp only [ensureKey, if_pos h] at hmem
    exact Or.inl hmem
  · simp only [ensureKey, if_neg h] at hmem
    rcases List.mem_append.mp hmem with h1 | h1
    · exact Or.inl h1
    · exact Or.inr (by simpa using h1)

/-! ### Ingest-step lemmas -/

theorem ingestOne_skip_le (excl : List String) (pps : JSNum) (s : Src)
    (st : MState) (h : InputRec) (hle : jsLe h.shares (some 0) = true) :
    ingestOne excl pps s st h = st := by
  simp [ingestOne, hle]

theorem ingestOne_skip_excl (excl : List String) (pps : JSNum)
    (st : MState) (h : InputRec) (hx : jsToLower h.address ∈ excl) :
    ingestOne excl pps Src.direct_vault st h = st := by
  by_cases hle : jsLe h.shares (some 0) = true <;> simp [ingestOne, hle, hx]

theorem ingestOne_eq_of_passes (excl : List String) (pps : JSNum) (s : Src)
    (st : MState) (h : InputRec) (hp : passesB excl (s, h) = true) :
    ingestOne excl pps s st h =
      updateKey (jsToLower h.address)
        (addPos s h.shares (jsMul h.shares pps)) (ensureKey h.address st) := by
  by_cases hle : jsLe h.shares (some 0) = true
  · simp [passesB, hle] at hp
  · by_cases hx : s = Src.direct_vault ∧ jsToLower h.address ∈ excl
    · simp [passesB, hle, hx] at hp
    · simp [ingestOne, hle, hx]

theorem ingestOne_eq_of_fails (excl : List String) (pps : JSNum) (s : Src)
    (st : MState) (h : InputRec) (hp : ¬ passesB excl (s, h) = true) :
    ingestOne excl pps s st h = st := by
  by_cases hle : jsLe h.shares (some 0) = true
  · simp [ingestOne, hle]
  · by_cases hx : s = Src.direct_vault ∧ jsToLower h.address ∈ excl
    · obtain ⟨hs, hmem⟩ := hx
      subst hs
      exact ingestOne_skip_excl excl pps st h hmem
    · simp [passesB, hle, hx] at hp

/-! ### Conservation invariant of the merge -/

theorem getPos_blank (s : Src) (addr : String) : getPos s (blankRec addr) = none := by
  cases s <;> simp [getPos, blankRec]

theorem keysOf_cons (h : InputRec) (t : List InputRec) :
    keysOf (h :: t) = jsToLower h.address :: keysOf t := by
  simp [keysOf]

theorem conserved_fold (excl : List String) (pps : JSNum) (s : Src) :
    ∀ (l : List InputRec) (st : MState),
      (∀ kr ∈ st, conserved kr.2) →
      (∀ kr ∈ st, getPos s kr.2 ≠ none → kr.1 ∉ keysOf l) →
      (keysOf l).Nodup →
      ∀ kr ∈ l.foldl (ingestOne excl pps s) st, conserved kr.2 := by
  intro l
  induction l with
  | nil =>
    intro st hA _ _ kr hkr
    exact hA kr hkr
  | cons h t ih =>
    intro st hA hB hnd
    rw [keysOf_cons] at hnd hB
    have hndt : (keysOf t).Nodup := (List.nodup_cons.mp hnd).2
    have hhead : jsToLower h.address ∉ keysOf t := (List.nodup_cons.mp hnd).1
    simp only [List.foldl_cons]
    by_cases hp : passesB excl (s, h) = true
    · rw [ingestOne_eq_of_passes excl pps s st h hp]
      apply ih
      · -- conservation holds after the step
        intro kr hkr
        rcases mem_updateKey_elim _ _ _ kr hkr with ⟨r₀, hr₀, hkr_eq⟩ | ⟨hmem, _⟩
        · rcases mem_ensureKey_elim _ _ _ hr₀ with hst | hbl
          · have hc : conserved r₀ := hA _ hst
            have hn : getPos s r₀ = none := by
              by_contra hne
              have := hB _ hst hne
              simp at this
            subst hkr_eq
            exact conserved_addPos _ _ _ _ hn hc
          · have hr : r₀ = blankRec h.address := congrArg Prod.snd hbl
            subst hkr_eq
            rw [hr]
            exact conserved_addPos _ _ _ _ (getPos_blank _ _) (conserved_blank _)
        · rcases mem_ensureKey_elim _ _ _ hmem with hst | hbl
          · exact hA _ hst
          · rw [hbl]
            exact conserved_blank _
      · -- the occupied-slot bookkeeping survives the step
        intro kr hkr hne
        rcases mem_updateKey_elim _ _ _ kr hkr with ⟨r₀, hr₀, hkr_eq⟩ | ⟨hmem, _⟩
        · subst hkr_eq
          exact hhead
        · rcases mem_ensureKey_elim _ _ _ hmem with hst | hbl
          · have := hB _ hst hne
            intro hc
            exact this (List.mem_cons_of_mem _ hc)
          · exfalso
            apply hne
            have hr : kr.2 = blankRec h.address := congrArg Prod.snd hbl
            rw [hr]
            exact getPos_blank _ _
      · exact hndt
    · rw [ingestOne_eq_of_fails excl pps s st h hp]
      apply ih _ hA _ hndt
      intro kr hkr hne
      have := hB kr hkr hne
      intro hc
      exact this (List.mem_cons_of_mem _ hc)

theorem getPos_none_fold (excl : List String) (pps : JSNum) (s s' : Src)
    (hss : ¬ s = s') :
    ∀ (l : List InputRec) (st : MState),
      (∀ kr ∈ st, getPos s' kr.2 = none) →
      ∀ kr ∈ l.foldl (ingestOne excl pps s) st, getPos s' kr.2 = none := by
  intro l
  induction l with
  | nil =>
    intro st hA kr hkr
    exact hA kr hkr
  | cons h t ih =>
    intro st hA
    simp only [List.foldl_cons]
    by_cases hp : passesB excl (s, h) = true
    · rw [ingestOne_eq_of_passes excl pps s st h hp]
      apply ih
      intro kr hkr
      rcases mem_updateKey_elim _ _ _ kr hkr with ⟨r₀, hr₀, hkr_eq⟩ | ⟨hmem, _⟩
      · subst hkr_eq
        rw [getPos_addPos_ne s s' _ _ _ hss]
        rcases mem_ensureKey_elim _ _ _ hr₀ with hst | hbl
        · exact hA _ hst
        · have hr : r₀ = blankRec h.address := congrArg Prod.snd hbl
          rw [hr]
          exact getPos_blank _ _
      · rcases mem_ensureKey_elim _ _ _ hmem with hst | hbl
        · exact hA _ hst
        · have hr : kr.2 = blankRec h.address := congrArg Prod.snd hbl
          rw [hr]
          exact getPos_blank _ _
    · rw [ingestOne_eq_of_fails excl pps s st h hp]
      exact ih st hA

theorem mergeState_conserved (inp : MergeInputs)
    (h1 : (keysOf inp.holders).Nodup)
    (h2 : (keysOf inp.convex_active_holders).Nodup)
    (h3 : (keysOf inp.direct_gauge_stakers).Nodup) :
    ∀ kr ∈ mergeState inp, conserved kr.2 := by
  have hA1 : ∀ kr ∈ inp.holders.foldl
      (ingestOne (excludedSet inp) inp.price_per_share Src.direct_vault) [],
      conserved kr.2 :=
    conserved_fold _ _ _ _ [] (by simp) (by simp) h1
  have hC1 : ∀ kr ∈ inp.holders.foldl
      (ingestOne (excludedSet inp) inp.price_per_share Src.direct_vault) [],
      getPos Src.convex kr.2 = none :=
    getPos_none_fold _ _ _ _ (by simp) _ [] (by simp)
  have hG1 : ∀ kr ∈ inp.holders.foldl
      (ingestOne (excludedSet inp) inp.price_per_share Src.direct_vault) [],
      getPos Src.direct_gauge kr.2 = none :=
    getPos_none_fold _ _ _ _ (by simp) _ [] (by simp)
  have hA2 : ∀ kr ∈ inp.convex_active_holders.foldl
      (ingestOne (excludedSet inp) inp.price_per_share Src.convex)
      (inp.holders.foldl
        (ingestOne (excludedSet inp) inp.price_per_share Src.direct_vault) []),
      conserved kr.2 := by
    apply conserved_fold _ _ _ _ _ hA1 _ h2
    intro kr hkr hne
    exact absurd (hC1 kr hkr) hne
  have hG2 : ∀ kr ∈ inp.convex_active_holders.foldl
      (ingestOne (excludedSet inp) inp.price_per_share Src.convex)
      (inp.holders.foldl
        (ingestOne (excludedSet inp) inp.price_per_share Src.direct_vault) []),
      getPos Src.direct_gauge kr.2 = none :=
    getPos_none_fold _ _ _ _ (by simp) _ _ hG1
  intro kr hkr
  apply conserved_fold _ _ _ _ _ hA2 _ h3 kr hkr
  intro kr' hkr' hne
  exact absurd (hG2 kr' hkr') hne

theorem conserved_pct (r : MRec) (p : String) (hc : conserved r) :
    conserved { r with pct_of_vault := p } := by
  obtain ⟨hs, hv⟩ := hc
  exact ⟨hs, hv⟩

theorem mergedRecs_conserved (inp : MergeInputs)
    (h1 : (keysOf inp.holders).Nodup)
    (h2 : (keysOf inp.convex_active_holders).Nodup)
    (h3 : (keysOf inp.direct_gauge_stakers).Nodup) :
    ∀ r ∈ mergedRecs inp, conserved r := by
  intro r hr
  simp only [mergedRecs, withPct, List.map_map, List.mem_map] at hr
  obtain ⟨kr, hkr, hr_eq⟩ := hr
  subst hr_eq
  exact conserved_pct _ _ (mergeState_conserved inp h1 h2 h3 kr hkr)

/-! ### Display address and identity machinery -/

/-- Left-biased choice on optional strings. -/
def orO : Option String → Option String → Option String
  | some a, _ => some a
  | none, b => b

theorem orO_none_right (a : Option String) : orO a none = a := by
  cases a <;> rfl

theorem orO_assoc (a b c : Option String) : orO (orO a b) c = orO a (orO b c) := by
  cases a <;> cases b <;> rfl

/-- The display address currently stored for a key. -/
def addressAt (k : String) (st : MState) : Option String :=
  (lookupA k st).map MRec.address

theorem lookupA_ensureKey (k addr : String) (st : MState) :
    lookupA k (ensureKey addr st) =
      if k = jsToLower addr then some ((lookupA k st).getD (blankRec addr))
      else lookupA k st := by
  by_cases hs : (lookupA (jsToLower addr) st).isSome
  · rw [ensureKey, if_pos hs]
    by_cases hk : k = jsToLower addr
    · subst hk
      obtain ⟨r, hr⟩ := Option.isSome_iff_exists.mp hs
      simp [hr]
    · rw [if_neg hk]
  · rw [ensureKey, if_neg hs]
    rw [lookupA_append]
    by_cases hk : k = jsToLower addr
    · have hnone : lookupA k st = none := by
        rw [hk]
        exact Option.not_isSome_iff_eq_none.mp hs
      simp only [if_pos hk, ← hk, hnone]
      rfl
    · have hne : ¬ jsToLower addr = k := fun hc => hk hc.symm
      cases hl : lookupA k st <;> simp [hl, hne, hk]

theorem passesB_pos (excl : List String) (sh : Src × InputRec)
    (hp : passesB excl sh = true) : jsLe sh.2.shares (some 0) = false := by
  by_cases hle : jsLe sh.2.shares (some 0) = true
  · simp [passesB, hle] at hp
  · simpa using hle

theorem passesB_not_excl (excl : List String) (sh : Src × InputRec)
    (hp : passesB excl sh = true) :
    ¬ (sh.1 = Src.direct_vault ∧ jsToLower sh.2.address ∈ excl) := by
  by_cases hle : jsLe sh.2.shares (some 0) = true
  · simp [passesB, hle] at hp
  · by_cases hx : sh.1 = Src.direct_vault ∧ jsToLower sh.2.address ∈ excl
    · simp [passesB, hle, hx] at hp
    · exact hx

theorem stepT_eq_of_passes (excl : List String) (pps : JSNum) (st : MState)
    (sh : Src × InputRec) (hp : passesB excl sh = true) :
    stepT excl pps st sh =
      updateKey (jsToLower sh.2.address)
        (addPos sh.1 sh.2.shares (jsMul sh.2.shares pps))
        (ensureKey sh.2.address st) :=
  ingestOne_eq_of_passes excl pps sh.1 st sh.2 hp

theorem stepT_eq_of_fails (excl : List String) (pps : JSNum) (st : MState)
    (sh : Src × InputRec) (hp : ¬ passesB excl sh = true) :
    stepT excl pps st sh = st :=
  ingestOne_eq_of_fails excl pps sh.1 st sh.2 hp

theorem addressAt_step (excl : List String) (pps : JSNum) (k : String)
    (st : MState) (sh : Src × InputRec) :
    addressAt k (stepT excl pps st sh) =
      orO (addressAt k st)
        (if passesB excl sh = true ∧ jsToLower sh.2.address = k
         then some sh.2.address else none) := by
  by_cases hp : passesB excl sh = true
  · rw [stepT_eq_of_passes excl pps st sh hp]
    by_cases hk : jsToLower sh.2.address = k
    · rw [if_pos ⟨hp, hk⟩]
      rw [addressAt, lookupA_updateKey, if_pos hk.symm, lookupA_ensureKey, if_pos hk.symm]
      cases hl : lookupA k st with
      | none =>
        simp [addressAt, hl, orO, address_addPos, blankRec]
      | some r =>
        simp [addressAt, hl, orO, address_addPos]
    · have hcond : ¬ (passesB excl sh = true ∧ jsToLower sh.2.address = k) :=
        fun hc => hk hc.2
      rw [if_neg hcond, orO_none_right]
      have hk' : ¬ k = jsToLower sh.2.address := fun hc => hk hc.symm
      rw [addressAt, lookupA_updateKey, if_neg hk', lookupA_ensureKey, if_neg hk']
      rfl
  · rw [stepT_eq_of_fails excl pps st sh hp]
    have hcond : ¬ (passesB excl sh = true ∧ jsToLower sh.2.address = k) :=
      fun hc => hp hc.1
    rw [if_neg hcond, orO_none_right]

theorem firstContrib_nil (excl : List String) (k : String) :
    firstContrib excl k [] = none := by
  simp [firstContrib]

theorem addressAt_foldl (excl : List String) (pps : JSNum) :
    ∀ (l : List (Src × InputRec)) (st : MState) (k : String),
      addressAt k (l.foldl (stepT excl pps) st) =
        orO (addressAt k st)
          ((firstContrib excl k l).map (fun sh => sh.2.address)) := by
  intro l
  induction l with
  | nil =>
    intro st k
    simp [firstContrib_nil, orO_none_right]
  | cons sh t ih =>
    intro st k
    simp only [List.foldl_cons]
    rw [ih, addressAt_step, orO_assoc]
    congr 1
    by_cases hp : passesB excl sh = true
    · by_cases hk : jsToLower sh.2.address = k
      · rw [if_pos ⟨hp, hk⟩]
        simp [firstContrib, List.filter_cons, hp, List.find?_cons, hk, orO]
      · have hcond : ¬ (passesB excl sh = true ∧ jsToLower sh.2.address = k) :=
          fun hc => hk hc.2
        rw [if_neg hcond]
        simp [firstContrib, List.filter_cons, hp, List.find?_cons, hk, orO]
    · have hcond : ¬ (passesB excl sh = true ∧ jsToLower sh.2.address = k) :=
        fun hc => hp hc.1
      rw [if_neg hcond]
      simp [firstContrib, List.filter_cons, hp, orO]

theorem mergeState_eq_foldT (inp : MergeInputs) :
    mergeState inp =
      (taggedInputs inp).foldl (stepT (excludedSet inp) inp.price_per_share) [] := by
  simp only [mergeState, taggedInputs, List.foldl_append, List.foldl_map]
  rfl

theorem mergeState_display (inp : MergeInputs) (k : String) (r : MRec)
    (h : lookupA k (mergeState inp) = some r) :
    (firstContrib (excludedSet inp) k (taggedInputs inp)).map
      (fun sh => sh.2.address) = some r.address := by
  have hfold := addressAt_foldl (excludedSet inp) inp.price_per_share
    (taggedInputs inp) [] k
  rw [← mergeState_eq_foldT] at hfold
  have h0 : addressAt k ([] : MState) = none := rfl
  rw [h0] at hfold
  have : addressAt k (mergeState inp) =
      (firstContrib (excludedSet inp) k (taggedInputs inp)).map
        (fun sh => sh.2.address) := by
    rw [hfold]
    rfl
  rw [addressAt, h] at this
  exact this.symm

/-! ### Key uniqueness and key-address coherence -/

theorem keysNodup_step (excl : List String) (pps : JSNum) (st : MState)
    (sh : Src × InputRec) (h : (st.map Prod.fst).Nodup) :
    ((stepT excl pps st sh).map Prod.fst).Nodup := by
  by_cases hp : passesB excl sh = true
  · rw [stepT_eq_of_passes excl pps st sh hp, fst_updateKey]
    by_cases hs : (lookupA (jsToLower sh.2.address) st).isSome
    · rw [ensureKey, if_pos hs]
      exact h
    · rw [ensureKey, if_neg hs]
      have hnotin : jsToLower sh.2.address ∉ st.map Prod.fst :=
        (lookupA_eq_none _ _).mp (Option.not_isSome_iff_eq_none.mp hs)
      simp [List.nodup_append, h, hnotin]
  · rw [stepT_eq_of_fails excl pps st sh hp]
    exact h

theorem keysNodup_fold (excl : List String) (pps : JSNum) :
    ∀ (l : List (Src × InputRec)) (st : MState),
      (st.map Prod.fst).Nodup →
      ((l.foldl (stepT excl pps) st).map Prod.fst).Nodup := by
  intro l
  induction l with
  | nil => exact fun st h => h
  | cons sh t ih =>
    intro st h
    exact ih _ (keysNodup_step excl pps st sh h)

theorem mergeState_keysNodup (inp : MergeInputs) :
    ((mergeState inp).map Prod.fst).Nodup := by
  rw [mergeState_eq_foldT]
  exact keysNodup_fold _ _ _ [] (by simp)

theorem coherent_step (excl : List String) (pps : JSNum) (st : MState)
    (sh : Src × InputRec)
    (h : ∀ kr ∈ st, kr.1 = jsToLower kr.2.address) :
    ∀ kr ∈ stepT excl pps st sh, kr.1 = jsToLower kr.2.address := by
  by_cases hp : passesB excl sh = true
  · rw [stepT_eq_of_passes excl pps st sh hp]
    intro kr hkr
    rcases mem_updateKey_elim _ _ _ kr hkr with ⟨r₀, hr₀, hkr_eq⟩ | ⟨hmem, _⟩
    · subst hkr_eq
      simp only [address_addPos]
      rcases mem_ensureKey_elim _ _ _ hr₀ with hst | hbl
      · exact h _ hst
      · have h1 : (jsToLower sh.2.address, r₀).1 = jsToLower sh.2.address :=
          congrArg Prod.fst hbl ▸ rfl
        have h2 : r₀ = blankRec sh.2.address := congrArg Prod.snd hbl
        rw [h2]
        rfl
    · rcases mem_ensureKey_elim _ _ _ hmem with hst | hbl
      · exact h _ hst
      · rw [hbl]
        rfl
  · rw [stepT_eq_of_fails excl pps st sh hp]
    exact h

theorem coherent_fold (excl : List String) (pps : JSNum) :
    ∀ (l : List (Src × InputRec)) (st : MState),
      (∀ kr ∈ st, kr.1 = jsToLower kr.2.address) →
      ∀ kr ∈ l.foldl (stepT excl pps) st, kr.1 = jsToLower kr.2.address := by
  intro l
  induction l with
  | nil => exact fun st h => h
  | cons sh t ih =>
    intro st h
    exact ih _ (coherent_step excl pps st sh h)

theorem mergeState_coherent (inp : MergeInputs) :
    ∀ kr ∈ mergeState inp, kr.1 = jsToLower kr.2.address := by
  rw [mergeState_eq_foldT]
  exact coherent_fold _ _ _ [] (by simp)

/-! ### A contributing record leaves a position behind -/

theorem posAt_step_mono (excl : List String) (pps : JSNum) (st : MState)
    (sh : Src × InputRec) (s' : Src) (k : String) (r' : MRec)
    (hl : lookupA k st = some r') (hpos : getPos s' r' ≠ none) :
    ∃ r'', lookupA k (stepT excl pps st sh) = some r'' ∧ getPos s' r'' ≠ none := by
  by_cases hp : passesB excl sh = true
  · rw [stepT_eq_of_passes excl pps st sh hp]
    by_cases hk : k = jsToLower sh.2.address
    · rw [lookupA_updateKey, if_pos hk, lookupA_ensureKey, if_pos hk, hl]
      refine ⟨_, rfl, ?_⟩
      by_cases hs : sh.1 = s'
      · subst hs
        rw [getPos_addPos_self]
        simp
      · rw [getPos_addPos_ne _ _ _ _ _ hs]
        simpa using hpos
    · rw [lookupA_updateKey, if_neg hk, lookupA_ensureKey, if_neg hk, hl]
      exact ⟨r', rfl, hpos⟩
  · rw [stepT_eq_of_fails excl pps st sh hp]
    exact ⟨r', hl, hpos⟩

theorem posAt_fold_mono (excl : List String) (pps : JSNum) :
    ∀ (l : List (Src × InputRec)) (st : MState) (s' : Src) (k : String) (r' : MRec),
      lookupA k st = some r' → getPos s' r' ≠ none →
      ∃ r'', lookupA k (l.foldl (stepT excl pps) st) = some r'' ∧
        getPos s' r'' ≠ none := by
  intro l
  induction l with
  | nil => exact fun st s' k r' hl hpos => ⟨r', hl, hpos⟩
  | cons sh t ih =>
    intro st s' k r' hl hpos
    obtain ⟨r'', hl'', hpos''⟩ := posAt_step_mono excl pps st sh s' k r' hl hpos
    exact ih _ _ _ _ hl'' hpos''

theorem contributes_sets (excl : List String) (pps : JSNum) :
    ∀ (l : List (Src × InputRec)) (st : MState) (sh : Src × InputRec),
      sh ∈ l → passesB excl sh = true →
      ∃ r, lookupA (jsToLower sh.2.address) (l.foldl (stepT excl pps) st) = some r ∧
        getPos sh.1 r ≠ none := by
  intro l
  induction l with
  | nil =>
    intro st sh hmem
    simp at hmem
  | cons a t ih =>
    intro st sh hmem hp
    rcases List.mem_cons.mp hmem with heq | hmem'
    · subst heq
      simp only [List.foldl_cons]
      have hstep : ∃ r, lookupA (jsToLower sh.2.address) (stepT excl pps st sh) = some r ∧
          getPos sh.1 r ≠ none := by
        rw [stepT_eq_of_passes excl pps st sh hp]
        rw [lookupA_updateKey, if_pos rfl, lookupA_ensureKey, if_pos rfl]
        refine ⟨_, rfl, ?_⟩
        rw [getPos_addPos_self]
        simp
      obtain ⟨r, hl, hpos⟩ := hstep
      exact posAt_fold_mono excl pps t _ _ _ _ hl hpos
    · simp only [List.foldl_cons]
      exact ih _ _ hmem' hp

/-! ### The exclusion invariant -/

theorem excluded_step (excl : List String) (pps : JSNum) (st : MState)
    (sh : Src × InputRec)
    (h : ∀ kr ∈ st, kr.1 ∈ excl → getPos Src.direct_vault kr.2 = none) :
    ∀ kr ∈ stepT excl pps st sh, kr.1 ∈ excl → getPos Src.direct_vault kr.2 = none := by
  by_cases hp : passesB excl sh = true
  · rw [stepT_eq_of_passes excl pps st sh hp]
    intro kr hkr hx
    rcases mem_updateKey_elim _ _ _ kr hkr with ⟨r₀, hr₀, hkr_eq⟩ | ⟨hmem, _⟩
    · have hkk : kr.1 = jsToLower sh.2.address := congrArg Prod.fst hkr_eq
      have hsne : ¬ sh.1 = Src.direct_vault := by
        intro hs
        exact passesB_not_excl excl sh hp ⟨hs, hkk ▸ hx⟩
      have hval : kr.2 = addPos sh.1 sh.2.shares (jsMul sh.2.shares pps) r₀ :=
        congrArg Prod.snd hkr_eq
      rw [hval, getPos_addPos_ne _ _ _ _ _ hsne]
      rcases mem_ensureKey_elim _ _ _ hr₀ with hst | hbl
      · exact h _ hst (hkk ▸ hx)
      · have hr : r₀ = blankRec sh.2.address := congrArg Prod.snd hbl
        rw [hr]
        exact getPos_blank _ _
    · rcases mem_ensureKey_elim _ _ _ hmem with hst | hbl
      · exact h _ hst hx
      · have hr : kr.2 = blankRec sh.2.address := congrArg Prod.snd hbl
        rw [hr]
        exact getPos_blank _ _
  · rw [stepT_eq_of_fails excl pps st sh hp]
    exact h

theorem excluded_fold (excl : List String) (pps : JSNum) :
    ∀ (l : List (Src × InputRec)) (st : MState),
      (∀ kr ∈ st, kr.1 ∈ excl → getPos Src.direct_vault kr.2 = none) →
      ∀ kr ∈ l.foldl (stepT excl pps) st, kr.1 ∈ excl →
        getPos Src.direct_vault kr.2 = none := by
  intro l
  induction l with
  | nil => exact fun st h => h
  | cons sh t ih =>
    intro st h
    exact ih _ (excluded_step excl pps st sh h)

theorem mergeState_excluded (inp : MergeInputs) :
    ∀ kr ∈ mergeState inp, kr.1 ∈ excludedSet inp →
      getPos Src.direct_vault kr.2 = none := by
  rw [mergeState_eq_foldT]
  exact excluded_fold _ _ _ [] (by simp)

/-! ### Sorting: order, stability, ranks -/

/-- The descending order relation on records used by the sort. -/
def geR (a b : MRec) : Prop := jsGe a.total_crvusd_value b.total_crvusd_value = true

theorem mem_insertDesc (x y : MRec) (l : List MRec) :
    y ∈ insertDesc x l ↔ y = x ∨ y ∈ l := by
  induction l with
  | nil => simp [insertDesc]
  | cons z zs ih =>
    by_cases h : jsGe x.total_crvusd_value z.total_crvusd_value = true
    · simp [insertDesc, h]
    · simp only [insertDesc, if_neg h, List.mem_cons, ih]
      tauto

theorem mem_sortDesc (l : List MRec) (y : MRec) : y ∈ sortDesc l ↔ y ∈ l := by
  induction l with
  | nil => simp [sortDesc]
  | cons x xs ih =>
    simp [sortDesc, mem_insertDesc, ih]

theorem sorted_insertDesc (x : MRec) (l : List MRec)
    (hall : ∀ r ∈ x :: l, (r.total_crvusd_value).isSome)
    (hs : l.Pairwise geR) : (insertDesc x l).Pairwise geR := by
  induction l with
  | nil => simp [insertDesc, List.pairwise_cons]
  | cons y ys ih =>
    obtain ⟨hy, hys⟩ := List.pairwise_cons.mp hs
    by_cases hxy : jsGe x.total_crvusd_value y.total_crvusd_value = true
    · rw [insertDesc, if_pos hxy]
      refine List.pairwise_cons.mpr ⟨?_, hs⟩
      intro z hz
      rcases List.mem_cons.mp hz with hz | hz
      · subst hz
        exact hxy
      · exact jsGe_trans _ _ _ hxy (hy z hz)
    · rw [insertDesc, if_neg hxy]
      refine List.pairwise_cons.mpr ⟨?_, ?_⟩
      · intro w hw
        rcases (mem_insertDesc _ w ys).mp hw with hw | hw
        · subst hw
          exact jsGe_total _ _ (hall _ (by simp)) (hall y (by simp)) hxy
        · exact hy w hw
      · apply ih _ hys
        intro r hr
        rcases List.mem_cons.mp hr with hr | hr
        · exact hall r (hr ▸ by simp)
        · exact hall r (by simp [hr])

theorem sorted_sortDesc (l : List MRec)
    (hall : ∀ r ∈ l, (r.total_crvusd_value).isSome) :
    (sortDesc l).Pairwise geR := by
  induction l with
  | nil => simp [sortDesc]
  | cons x xs ih =>
    rw [sortDesc]
    apply sorted_insertDesc
    · intro r hr
      rcases List.mem_cons.mp hr with hr | hr
      · exact hall r (hr ▸ by simp)
      · exact hall r (by simp [(mem_sortDesc xs r).mp hr])
    · apply ih
      intro r hr
      exact hall r (by simp [hr])

theorem filter_insertDesc (v : JSNum) (x : MRec) (l : List MRec)
    (hall : ∀ r ∈ x :: l, (r.total_crvusd_value).isSome) :
    (insertDesc x l).filter (fun r => decide (r.total_crvusd_value = v)) =
      if x.total_crvusd_value = v
      then x :: l.filter (fun r => decide (r.total_crvusd_value = v))
      else l.filter (fun r => decide (r.total_crvusd_value = v)) := by
  induction l with
  | nil =>
    by_cases hxv : x.total_crvusd_value = v <;>
      simp [insertDesc, List.filter_cons, hxv]
  | cons y ys ih =>
    by_cases hxy : jsGe x.total_crvusd_value y.total_crvusd_value = true
    · rw [insertDesc, if_pos hxy]
      by_cases hxv : x.total_crvusd_value = v <;>
        simp [List.filter_cons, hxv]
    · rw [insertDesc, if_neg hxy]
      have hyne : ¬ y.total_crvusd_value = x.total_crvusd_value :=
        jsGe_asymm_ne _ _ (hall x (by simp)) (hall y (by simp)) hxy
      have ihy := ih (by
        intro r hr
        rcases List.mem_cons.mp hr with hr | hr
        · exact hall r (hr ▸ by simp)
        · exact hall r (by simp [hr]))
      by_cases hxv : x.total_crvusd_value = v
      · have hyv : ¬ y.total_crvusd_value = v := fun hc => hyne (hxv ▸ hc)
        simp [List.filter_cons, hyv, ihy, hxv]
      · simp [List.filter_cons, ihy, hxv]

theorem filter_sortDesc (v : JSNum) (l : List MRec)
    (hall : ∀ r ∈ l, (r.total_crvusd_value).isSome) :
    (sortDesc l).filter (fun r => decide (r.total_crvusd_value = v)) =
      l.filter (fun r => decide (r.total_crvusd_value = v)) := by
  induction l with
  | nil => simp [sortDesc]
  | cons x xs ih =>
    rw [sortDesc]
    rw [filter_insertDesc v x (sortDesc xs) (by
      intro r hr
      rcases List.mem_cons.mp hr with hr | hr
      · exact hall r (hr ▸ by simp)
      · exact hall r (by simp [(mem_sortDesc xs r).mp hr]))]
    have ihx := ih (by
      intro r hr
      exact hall r (by simp [hr]))
    by_cases hxv : x.total_crvusd_value = v <;>
      simp [List.filter_cons, hxv, ihx]

theorem length_rankFrom (n : Nat) (l : List MRec) :
    (rankFrom n l).length = l.length := by
  induction l generalizing n with
  | nil => rfl
  | cons r rs ih => simp [rankFrom, ih]

theorem map_rank_rankFrom (n : Nat) (l : List MRec) :
    (rankFrom n l).map FmtLender.rank = List.range' (n + 1) l.length := by
  induction l generalizing n with
  | nil => rfl
  | cons r rs ih =>
    simp [rankFrom, fmtLender, List.range'_succ, ih]

theorem rank_get_rankFrom (l : List MRec) (n i : Nat)
    (h : i < (rankFrom n l).length) :
    ((rankFrom n l).get ⟨i, h⟩).rank = n + i + 1 := by
  induction l generalizing n i with
  | nil => simp [rankFrom] at h
  | cons r rs ih =>
    cases i with
    | zero => rfl
    | succ j =>
      have hj : j < (rankFrom (n + 1) rs).length := by
        simpa [rankFrom] using h
      have := ih (n + 1) j hj
      simpa [rankFrom, Nat.add_assoc, Nat.add_comm, Nat.add_left_comm] using this

/-! ### Totals are genuine numbers on parsed inputs -/

theorem totals_isSome_fold (excl : List String) (pps : JSNum)
    (hpps : pps.isSome) :
    ∀ (l : List (Src × InputRec)) (st : MState),
      (∀ sh ∈ l, sh.2.shares.isSome) →
      (∀ kr ∈ st, kr.2.total_shares.isSome ∧ kr.2.total_crvusd_value.isSome) →
      ∀ kr ∈ l.foldl (stepT excl pps) st,
        kr.2.total_shares.isSome ∧ kr.2.total_crvusd_value.isSome := by
  intro l
  induction l with
  | nil => exact fun st _ h => h
  | cons sh t ih =>
    intro st hl hst
    simp only [List.foldl_cons]
    apply ih _ (fun a ha => hl a (List.mem_cons_of_mem _ ha))
    by_cases hp : passesB excl sh = true
    · rw [stepT_eq_of_passes excl pps st sh hp]
      intro kr hkr
      have hshares : sh.2.shares.isSome := hl sh (by simp)
      rcases mem_updateKey_elim _ _ _ kr hkr with ⟨r₀, hr₀, hkr_eq⟩ | ⟨hmem, _⟩
      · have hr₀some : r₀.total_shares.isSome ∧ r₀.total_crvusd_value.isSome := by
          rcases mem_ensureKey_elim _ _ _ hr₀ with hst' | hbl
          · exact hst _ hst'
          · have hr : r₀ = blankRec sh.2.address := congrArg Prod.snd hbl
            rw [hr]
            simp [blankRec]
        have hval : kr.2 = addPos sh.1 sh.2.shares (jsMul sh.2.shares pps) r₀ :=
          congrArg Prod.snd hkr_eq
        rw [hval, total_shares_addPos, total_value_addPos]
        exact ⟨jsAdd_isSome _ _ hr₀some.1 hshares,
          jsAdd_isSome _ _ hr₀some.2 (jsMul_isSome _ _ hshares hpps)⟩
      · rcases mem_ensureKey_elim _ _ _ hmem with hst' | hbl
        · exact hst _ hst'
        · have hr : kr.2 = blankRec sh.2.address := congrArg Prod.snd hbl
          rw [hr]
          simp [blankRec]
    · rw [stepT_eq_of_fails excl pps st sh hp]
      exact hst

theorem mergedRecs_totals_isSome (inp : MergeInputs)
    (hpps : inp.price_per_share.isSome)
    (hs : ∀ sh ∈ taggedInputs inp, sh.2.shares.isSome) :
    ∀ r ∈ mergedRecs inp,
      r.total_shares.isSome ∧ r.total_crvusd_value.isSome := by
  intro r hr
  simp only [mergedRecs, withPct, List.map_map, List.mem_map] at hr
  obtain ⟨kr, hkr, hr_eq⟩ := hr
  subst hr_eq
  have := totals_isSome_fold (excludedSet inp) inp.price_per_share hpps
    (taggedInputs inp) [] hs (by simp) kr (by rwa [← mergeState_eq_foldT])
  exact this

/-! ### Claim theorems -/

/-- Helper to build a concrete merge input with default metadata strings. -/
def mkInputs (d c g : List InputRec) (excl : List String) (pps tvs : JSNum) :
    MergeInputs :=
  ⟨d, c, g, excl, pps, tvs, some 0, "", "", "", "", "", "", 0, ""⟩

/-- A concrete event whose table classification is standard but whose log
count exceeds 10, so the heuristic signals leverage. -/
def c7CexEvent : BorrowEvent := ⟨"0x23cfed03", 20, 3, 0, 0⟩

/-- C7 counterexample: for the event `c7CexEvent` the table classification
(`create_loan (standard)`) and the log-count heuristic (20 > 10 logs) disagree,
yet the classifier emits no warning: the code only warns in the opposite
direction (table says leverage, few logs).  This refutes the claim that ANY
mismatch between the table classification and the heuristic produces a
warning. -/
theorem c7_mismatch_without_warning :
    isLeverageLabel (classifySelector c7CexEvent.functionSelector) = false ∧
    isExtendedEvent c7CexEvent = true ∧
    warnsLeverageMismatch c7CexEvent = false := by
  decide

/-- C7 (amended): the assigned category comes from the fixed selector table
alone — it does not depend on the log count, and the per-borrower
accumulation is unchanged if only the log count changes — and a warning is
produced exactly when the table classifies the event as leverage while the
log count is at most 10 (the reverse mismatch produces no warning); the
heuristic never changes the assigned category and never causes an error. -/
theorem c7_table_precedence (e : BorrowEvent) (b : Borrower) (n : Nat) :
    classifySelector
        (BorrowEvent.mk e.functionSelector n e.transferCount
          e.collateral_increase_squid e.loan_increase_crvusd).functionSelector =
      classifySelector e.functionSelector ∧
    updateBorrower b
        (BorrowEvent.mk e.functionSelector n e.transferCount
          e.collateral_increase_squid e.loan_increase_crvusd) =
      updateBorrower b e ∧
    (warnsLeverageMismatch e = true ↔
      (isLeverageLabel (classifySelector e.functionSelector) = true ∧
        e.totalLogCount ≤ 10)) := by
  refine ⟨rfl, rfl, ?_⟩
  simp [warnsLeverageMismatch, isExtendedEvent, Bool.and_eq_true, not_lt]

/-- C10: an event with selector `0x24049e57` is labelled
`add_collateral (no borrow)`, and because that label contains the substring
`borrow`, the non-leverage branch counts it into the borrower's standard
totals (`standardCollateral`, `standardBorrowed`, `standardCount`); an event
whose classification falls back to `UNKNOWN` contributes to neither the
leverage nor the standard per-borrower totals (only the unconditional
grand totals are updated). -/
theorem c10_add_collateral_standard_unknown_neither (b : Borrower)
    (lc tc : Nat) (coll borr : ℚ) (e : BorrowEvent)
    (hu : classifySelector e.functionSelector = "UNKNOWN") :
    updateBorrower b ⟨"0x24049e57", lc, tc, coll, borr⟩ =
      { b with
        totalCollateralDeposited := b.totalCollateralDeposited + coll
        totalCrvUSDBorrowed := b.totalCrvUSDBorrowed + borr
        standardCollateral := b.standardCollateral + coll
        standardBorrowed := b.standardBorrowed + borr
        standardCount := b.standardCount + 1 } ∧
    updateBorrower b e =
      { b with
        totalCollateralDeposited :=
          b.totalCollateralDeposited + e.collateral_increase_squid
        totalCrvUSDBorrowed :=
          b.totalCrvUSDBorrowed + e.loan_increase_crvusd } := by
  constructor
  · rfl
  · rw [updateBorrower]
    rw [hu]
    rfl

/-- Witness for C10 at a concrete borrower state and concrete events: an
unknown selector (`0xdeadbeef`) classifies as `UNKNOWN`, and the theorem
applies. -/
theorem c10_witness :
    classifySelector "0xdeadbeef" = "UNKNOWN" ∧
    (updateBorrower ⟨1, 2, 3, 4, 5, 6, 7, 8⟩ ⟨"0x24049e57", 6, 1, 10, 20⟩ =
      { Borrower.mk 1 2 3 4 5 6 7 8 with
        totalCollateralDeposited := 1 + 10
        totalCrvUSDBorrowed := 2 + 20
        standardCollateral := 5 + 10
        standardBorrowed := 6 + 20
        standardCount := 8 + 1 } ∧
    updateBorrower ⟨1, 2, 3, 4, 5, 6, 7, 8⟩ ⟨"0xdeadbeef", 6, 1, 10, 20⟩ =
      { Borrower.mk 1 2 3 4 5 6 7 8 with
        totalCollateralDeposited := 1 + 10
        totalCrvUSDBorrowed := 2 + 20 }) :=
  ⟨by decide,
    c10_add_collateral_standard_unknown_neither ⟨1, 2, 3, 4, 5, 6, 7, 8⟩ 6 1 10 20
      ⟨"0xdeadbeef", 6, 1, 10, 20⟩ (by decide)⟩

/-- A merge input whose single direct-holder record has an unparseable shares
string: `parseFloat` yields `NaN`, modelled by `shares = none`. -/
def c1Input : MergeInputs :=
  mkInputs [⟨"0xBadRecord", none⟩] [] [] [] (some 1) (some 1)

/-- C1: the code does NOT signal any `MalformedInputError` for a record whose
shares field cannot be parsed — no such error exists anywhere in the script.
`parseFloat` yields `NaN`, the `shares <= 0` dust check is false for `NaN`,
and the record is ingested: the merge is a total function that returns an
output in which the offending record is present with `NaN` shares, `NaN`
value and `NaN` totals.  This theorem evaluates the merge at the failing
input and exhibits that behaviour, supporting the `code_bug` verdict. -/
theorem c1_unparseable_shares_ingested_as_nan :
    (mergedRecs c1Input).map
        (fun r => (r.address, r.total_shares, r.total_crvusd_value, r.direct_vault)) =
      [("0xBadRecord", none, none, some ⟨none, none⟩)] ∧
    (formattedLenders c1Input).map (fun r => r.total_shares) = ["NaN"] := by
  constructor
  · with_unfolding_all decide
  · with_unfolding_all decide

/-- A merge input in which the same address occurs twice within the
direct-holder sequence, with positive parsed shares 100 and 50. -/
def c2CexInput : MergeInputs :=
  mkInputs [⟨"0xAA", some 100⟩, ⟨"0xAA", some 50⟩] [] [] [] (some 1) (some 150)

/-- C2 counterexample: when the same address occurs twice within one source
sequence, the second record's position overwrites the first in the
`positions` breakdown while both records' shares are added to the running
totals, so `total_shares` (150) is NOT the sum of shares over the present
positions (50).  This refutes the claim for inputs with an in-sequence
duplicate address. -/
theorem c2_duplicate_breaks_conservation :
    ¬ ∀ r ∈ mergedRecs c2CexInput, conserved r := by
  with_unfolding_all decide

/-- C2 (amended): provided each case-insensitive address occurs at most once
within each of the three source sequences, every merged record's
`total_shares` equals the exact sum of `shares` over its present positions
and `total_crvusd_value` equals the exact sum of `crvusd_value` over its
present positions, with no tolerance (exact rational equality). -/
theorem c2_conservation_of_nodup (inp : MergeInputs)
    (h1 : (keysOf inp.holders).Nodup)
    (h2 : (keysOf inp.convex_active_holders).Nodup)
    (h3 : (keysOf inp.direct_gauge_stakers).Nodup) :
    ∀ r ∈ mergedRecs inp,
      r.total_shares = posFieldSum Position.shares r ∧
      r.total_crvusd_value = posFieldSum Position.crvusd_value r :=
  fun r hr => mergedRecs_conserved inp h1 h2 h3 r hr

/-- A duplicate-free merge input exercising all three sources and a
case-insensitive cross-source overlap. -/
def c2WitnessInput : MergeInputs :=
  mkInputs [⟨"0xAAA", some 100⟩, ⟨"0xBbB", some 7⟩] [⟨"0xaaa", some 50⟩]
    [⟨"0xAaA", some 3⟩] [] (some 2) (some 160)

/-- Witness for C2 (amended) at a concrete duplicate-free input. -/
theorem c2_conservation_witness :
    ((keysOf c2WitnessInput.holders).Nodup ∧
      (keysOf c2WitnessInput.convex_active_holders).Nodup ∧
      (keysOf c2WitnessInput.direct_gauge_stakers).Nodup) ∧
    ∀ r ∈ mergedRecs c2WitnessInput,
      r.total_shares = posFieldSum Position.shares r ∧
      r.total_crvusd_value = posFieldSum Position.crvusd_value r :=
  ⟨⟨by decide, by decide, by decide⟩,
    c2_conservation_of_nodup c2WitnessInput (by decide) (by decide) (by decide)⟩

/-- C8: the merge is deterministic — the output is a pure function of the
input datasets and reference values, and the `generated_at` timestamp is the
only run-dependent field: two outputs built from the same inputs at
different times agree exactly once `generated_at` is erased. -/
theorem c8_deterministic_up_to_timestamp (t1 t2 : String) (inp : MergeInputs) :
    { buildOutput t1 inp with generated_at := "" } =
      { buildOutput t2 inp with generated_at := "" } := rfl

theorem passesB_nonvault (excl : List String) (s : Src) (h : InputRec)
    (hs : ¬ s = Src.direct_vault) (hle : jsLe h.shares (some 0) = false) :
    passesB excl (s, h) = true := by
  simp [passesB, hle, hs]

/-- C3: on any input whose shares and price-per-share all parse as numbers,
the output is sorted non-increasing in `total_crvusd_value`; the sort is
stable — for every value `v`, the sub-sequence of records with that total
value is exactly the sub-sequence of the insertion-ordered (first-seen)
merged records with that value; and the `rank` fields form the contiguous
sequence `1..N` matching each record's position in the `lenders` array. -/
theorem c3_sorted_stable_ranked (inp : MergeInputs)
    (hpps : inp.price_per_share.isSome)
    (hs : ∀ sh ∈ taggedInputs inp, sh.2.shares.isSome) :
    (sortedRecs inp).Pairwise geR ∧
    (∀ v : JSNum,
      (sortedRecs inp).filter (fun r => decide (r.total_crvusd_value = v)) =
        (mergedRecs inp).filter (fun r => decide (r.total_crvusd_value = v))) ∧
    (formattedLenders inp).map FmtLender.rank =
      List.range' 1 (formattedLenders inp).length ∧
    ∀ (i : Nat) (h : i < (formattedLenders inp).length),
      ((formattedLenders inp).get ⟨i, h⟩).rank = i + 1 := by
  have hall : ∀ r ∈ mergedRecs inp, (r.total_crvusd_value).isSome :=
    fun r hr => (mergedRecs_totals_isSome inp hpps hs r hr).2
  refine ⟨sorted_sortDesc _ hall, fun v => filter_sortDesc v _ hall, ?_, ?_⟩
  · rw [formattedLenders, map_rank_rankFrom, length_rankFrom]
  · intro i h
    have := rank_get_rankFrom (sortedRecs inp) 0 i h
    simpa using this

/-- A concrete three-record input with a tie in total value. -/
def c3WitnessInput : MergeInputs :=
  mkInputs [⟨"0xA", some 5⟩, ⟨"0xB", some 1⟩, ⟨"0xC", some 5⟩] [] [] []
    (some 1) (some 11)

/-- Witness for C3 at a concrete input containing a tie. -/
theorem c3_witness :
    ((c3WitnessInput.price_per_share).isSome ∧
      (∀ sh ∈ taggedInputs c3WitnessInput, sh.2.shares.isSome)) ∧
    ((sortedRecs c3WitnessInput).Pairwise geR ∧
      (∀ v : JSNum,
        (sortedRecs c3WitnessInput).filter
            (fun r => decide (r.total_crvusd_value = v)) =
          (mergedRecs c3WitnessInput).filter
            (fun r => decide (r.total_crvusd_value = v))) ∧
      (formattedLenders c3WitnessInput).map FmtLender.rank =
        List.range' 1 (formattedLenders c3WitnessInput).length ∧
      ∀ (i : Nat) (h : i < (formattedLenders c3WitnessInput).length),
        ((formattedLenders c3WitnessInput).get ⟨i, h⟩).rank = i + 1) :=
  ⟨⟨by decide, by decide⟩,
    c3_sorted_stable_ranked c3WitnessInput (by decide) (by decide)⟩

/-- C4: an address in the excluded set (matched case-insensitively: the
configured addresses and the record addresses are both lowercased) never
carries a `direct_vault` position in the merged output; the exclusion guard
exists only in the direct-holder loop, so any record of the Convex or
direct-gauge sequences with positive parsed shares — excluded address or not
— still produces its position on the merged record for that address. -/
theorem c4_excluded_only_direct (inp : MergeInputs) :
    (∀ r ∈ mergedRecs inp, jsToLower r.address ∈ excludedSet inp →
      r.direct_vault = none) ∧
    (∀ h ∈ inp.convex_active_holders, jsLe h.shares (some 0) = false →
      ∃ r, lookupA (jsToLower h.address) (mergeState inp) = some r ∧
        ¬ r.convex = none) ∧
    (∀ h ∈ inp.direct_gauge_stakers, jsLe h.shares (some 0) = false →
      ∃ r, lookupA (jsToLower h.address) (mergeState inp) = some r ∧
        ¬ r.direct_gauge = none) := by
  refine ⟨?_, ?_, ?_⟩
  · intro r hr hx
    simp only [mergedRecs, withPct, List.map_map, List.mem_map] at hr
    obtain ⟨kr, hkr, hr_eq⟩ := hr
    have haddr : r.address = kr.2.address := by
      rw [← hr_eq]
      rfl
    have hdv : r.direct_vault = kr.2.direct_vault := by
      rw [← hr_eq]
      rfl
    have hcoh := mergeState_coherent inp kr hkr
    have hx' : kr.1 ∈ excludedSet inp := by
      rw [hcoh, ← haddr]
      exact hx
    have := mergeState_excluded inp kr hkr hx'
    rw [hdv]
    exact this
  · intro h hmem hle
    have hsh : (Src.convex, h) ∈ taggedInputs inp := by
      simp only [taggedInputs, List.mem_append, List.mem_map]
      exact Or.inl (Or.inr ⟨h, hmem, rfl⟩)
    have hpass : passesB (excludedSet inp) (Src.convex, h) = true :=
      passesB_nonvault _ _ _ (by simp) hle
    obtain ⟨r, hl, hpos⟩ :=
      contributes_sets (excludedSet inp) inp.price_per_share
        (taggedInputs inp) [] _ hsh hpass
    rw [← mergeState_eq_foldT] at hl
    exact ⟨r, hl, hpos⟩
  · intro h hmem hle
    have hsh : (Src.direct_gauge, h) ∈ taggedInputs inp := by
      simp only [taggedInputs, List.mem_append, List.mem_map]
      exact Or.inr ⟨h, hmem, rfl⟩
    have hpass : passesB (excludedSet inp) (Src.direct_gauge, h) = true :=
      passesB_nonvault _ _ _ (by simp) hle
    obtain ⟨r, hl, hpos⟩ :=
      contributes_sets (excludedSet inp) inp.price_per_share
        (taggedInputs inp) [] _ hsh hpass
    rw [← mergeState_eq_foldT] at hl
    exact ⟨r, hl, hpos⟩

/-- A concrete input whose excluded contract address appears, in various
casings, in all three source sequences. -/
def c4WitnessInput : MergeInputs :=
  mkInputs [⟨"0xGauge", some 10⟩, ⟨"0xAA", some 1⟩] [⟨"0xgauGE", some 5⟩]
    [⟨"0xGAUGE", some 7⟩] ["0xGAUGE"] (some 1) (some 23)

/-- Witness for C4: the excluded address is dropped from the direct-holder
source but still receives its Convex and gauge positions. -/
theorem c4_witness :
    ((⟨"0xgauGE", some 5⟩ : InputRec) ∈ c4WitnessInput.convex_active_holders ∧
      jsLe (some (5 : ℚ)) (some 0) = false ∧
      (∃ r ∈ mergedRecs c4WitnessInput,
        jsToLower r.address ∈ excludedSet c4WitnessInput ∧
          ¬ r.convex = none ∧ ¬ r.direct_gauge = none)) ∧
    (∀ r ∈ mergedRecs c4WitnessInput,
      jsToLower r.address ∈ excludedSet c4WitnessInput →
        r.direct_vault = none) ∧
    (∃ r, lookupA (jsToLower "0xgauGE") (mergeState c4WitnessInput) = some r ∧
      ¬ r.convex = none) :=
  ⟨⟨by decide, by decide, by with_unfolding_all decide⟩,
    (c4_excluded_only_direct c4WitnessInput).1,
    (c4_excluded_only_direct c4WitnessInput).2.1 ⟨"0xgauGE", some 5⟩
      (by decide) (by decide)⟩

/-- C5: address identity is case-insensitive and display casing is
first-seen.  The accumulator keys are pairwise distinct, every key is the
lowercased form of its record's display address (so two raw addresses that
differ only in case share a single merged record); a direct-holder record
and a Convex record whose addresses differ only in case both attach their
positions to that one record; and any record's display address is the
verbatim raw address of the first record, in processing order, that
contributed to its identity. -/
theorem c5_case_insensitive_identity (inp : MergeInputs) (h1 h2 : InputRec)
    (hm1 : h1 ∈ inp.holders) (hm2 : h2 ∈ inp.convex_active_holders)
    (hkey : jsToLower h2.address = jsToLower h1.address)
    (hp1 : passesB (excludedSet inp) (Src.direct_vault, h1) = true)
    (hle2 : jsLe h2.shares (some 0) = false) :
    ((mergeState inp).map Prod.fst).Nodup ∧
    (∀ kr ∈ mergeState inp, kr.1 = jsToLower kr.2.address) ∧
    (∃ r, lookupA (jsToLower h1.address) (mergeState inp) = some r ∧
      ¬ r.direct_vault = none ∧ ¬ r.convex = none) ∧
    (∀ (k : String) (r : MRec), lookupA k (mergeState inp) = some r →
      (firstContrib (excludedSet inp) k (taggedInputs inp)).map
        (fun sh => sh.2.address) = some r.address) := by
  refine ⟨mergeState_keysNodup inp, mergeState_coherent inp, ?_,
    fun k r h => mergeState_display inp k r h⟩
  have hsh1 : (Src.direct_vault, h1) ∈ taggedInputs inp := by
    simp only [taggedInputs, List.mem_append, List.mem_map]
    exact Or.inl (Or.inl ⟨h1, hm1, rfl⟩)
  have hsh2 : (Src.convex, h2) ∈ taggedInputs inp := by
    simp only [taggedInputs, List.mem_append, List.mem_map]
    exact Or.inl (Or.inr ⟨h2, hm2, rfl⟩)
  have hp2 : passesB (excludedSet inp) (Src.convex, h2) = true :=
    passesB_nonvault _ _ _ (by simp) hle2
  obtain ⟨r, hl, hpos⟩ :=
    contributes_sets (excludedSet inp) inp.price_per_share
      (taggedInputs inp) [] _ hsh1 hp1
  obtain ⟨r', hl', hpos'⟩ :=
    contributes_sets (excludedSet inp) inp.price_per_share
      (taggedInputs inp) [] _ hsh2 hp2
  rw [← mergeState_eq_foldT] at hl hl'
  rw [hkey] at hl'
  have hrr : r = r' := by
    rw [hl] at hl'
    exact Option.some_inj.mp hl'
  subst hrr
  exact ⟨r, hl, hpos, hpos'⟩

/-- A concrete input where the same address appears as `0xAbC` among the
direct holders and as `0xaBc` among the Convex depositors. -/
def c5WitnessInput : MergeInputs :=
  mkInputs [⟨"0xAbC", some 4⟩] [⟨"0xaBc", some 6⟩] [] [] (some 1) (some 10)

/-- Witness for C5: the two casings merge into one record whose display
address keeps the first-seen casing `0xAbC` and whose totals combine both
positions. -/
theorem c5_witness :
    ((⟨"0xAbC", some (4 : ℚ)⟩ : InputRec) ∈ c5WitnessInput.holders ∧
      jsToLower "0xaBc" = jsToLower "0xAbC" ∧
      passesB (excludedSet c5WitnessInput)
        (Src.direct_vault, ⟨"0xAbC", some 4⟩) = true ∧
      jsLe (some (6 : ℚ)) (some 0) = false ∧
      (mergedRecs c5WitnessInput).map
          (fun r => (r.address, r.total_shares)) = [("0xAbC", some 10)]) ∧
    (((mergeState c5WitnessInput).map Prod.fst).Nodup ∧
      (∀ kr ∈ mergeState c5WitnessInput, kr.1 = jsToLower kr.2.address) ∧
      (∃ r, lookupA (jsToLower "0xAbC") (mergeState c5WitnessInput) = some r ∧
        ¬ r.direct_vault = none ∧ ¬ r.convex = none) ∧
      (∀ (k : String) (r : MRec), lookupA k (mergeState c5WitnessInput) = some r →
        (firstContrib (excludedSet c5WitnessInput) k
            (taggedInputs c5WitnessInput)).map
          (fun sh => sh.2.address) = some r.address)) :=
  ⟨⟨by decide, by decide, by decide, by decide, by with_unfolding_all decide⟩,
    c5_case_insensitive_identity c5WitnessInput ⟨"0xAbC", some 4⟩ ⟨"0xaBc", some 6⟩
      (by decide) (by decide) (by decide) (by decide) (by decide)⟩

/-- C6: a source record whose parsed shares amount is zero or negative is
skipped at ingestion: the ingest step leaves the accumulator untouched, and
removing such a record from any position of any of the three source
sequences leaves the whole merge unchanged — it produces no position, no
record, and no contribution to any total. -/
theorem c6_nonpositive_skipped (h : InputRec) (q : ℚ) (hq : h.shares = some q)
    (hq0 : q ≤ 0) :
    (∀ (excl : List String) (pps : JSNum) (s : Src) (st : MState),
      ingestOne excl pps s st h = st) ∧
    (∀ (excl : List String) (pps : JSNum) (s : Src) (st : MState)
        (pre post : List InputRec),
      (pre ++ h :: post).foldl (ingestOne excl pps s) st =
        (pre ++ post).foldl (ingestOne excl pps s) st) := by
  have hle : jsLe h.shares (some 0) = true := by
    rw [hq]
    simp [jsLe, hq0]
  refine ⟨fun excl pps s st => ingestOne_skip_le excl pps s st h hle, ?_⟩
  intro excl pps s st pre post
  rw [List.foldl_append, List.foldl_append, List.foldl_cons,
    ingestOne_skip_le excl pps s _ h hle]

/-- Witness for C6: a zero-share record is dropped, leaving the merge of the
remaining records. -/
theorem c6_witness :
    ((⟨"0xZero", some 0⟩ : InputRec).shares = some (0 : ℚ) ∧ (0 : ℚ) ≤ 0 ∧
      mergedRecs (mkInputs [⟨"0xZero", some 0⟩] [] [] [] (some 1) (some 1)) = []) ∧
    ([(⟨"0xP", some 2⟩ : InputRec)] ++ (⟨"0xZero", some 0⟩ : InputRec) ::
        ([⟨"0xQ", some 3⟩] : List InputRec)).foldl
        (ingestOne [] (some 1) Src.convex) [] =
      ([(⟨"0xP", some 2⟩ : InputRec)] ++ ([⟨"0xQ", some 3⟩] : List InputRec)).foldl
        (ingestOne [] (some 1) Src.convex) [] :=
  ⟨⟨by decide, by decide, by with_unfolding_all decide⟩,
    (c6_nonpositive_skipped ⟨"0xZero", some 0⟩ 0 (by decide) (by decide)).2
      [] (some 1) Src.convex [] [⟨"0xP", some 2⟩] [⟨"0xQ", some 3⟩]⟩

/-- C9: when the same case-insensitive address occurs twice within one input
sequence, both with positive parsed shares, the second record's position
REPLACES the first under that source category, while the shares and values of
BOTH records are added to the merged record's running totals, and the
category is appended to the `sources` list only once; the display address
keeps the first record's casing. -/
theorem c9_duplicate_overwrites_position_totals_accumulate
    (s : Src) (a1 a2 : String) (q1 q2 : ℚ) (pps : JSNum)
    (hk : jsToLower a2 = jsToLower a1) (h1 : ¬ q1 ≤ 0) (h2 : ¬ q2 ≤ 0) :
    ∃ r : MRec,
      ([⟨a1, some q1⟩, ⟨a2, some q2⟩] : List InputRec).foldl
          (ingestOne [] pps s) [] = [(jsToLower a1, r)] ∧
      getPos s r = some ⟨some q2, jsMul (some q2) pps⟩ ∧
      r.total_shares = some (q1 + q2) ∧
      r.total_crvusd_value = jsAdd (jsMul (some q1) pps) (jsMul (some q2) pps) ∧
      r.sources = [s] ∧
      r.address = a1 := by
  have hle1 : jsLe (some q1) (some 0) = false := by simp [jsLe, h1]
  have hle2 : jsLe (some q2) (some 0) = false := by simp [jsLe, h2]
  have hstep1 : ingestOne [] pps s [] ⟨a1, some q1⟩ =
      [(jsToLower a1, addPos s (some q1) (jsMul (some q1) pps) (blankRec a1))] := by
    rw [ingestOne]
    simp only [hle1, Bool.false_eq_true, if_false]
    rw [if_neg (by simp)]
    simp [ensureKey, lookupA, updateKey]
  have hstep2 : ingestOne [] pps s
      [(jsToLower a1, addPos s (some q1) (jsMul (some q1) pps) (blankRec a1))]
      ⟨a2, some q2⟩ =
      [(jsToLower a1,
        addPos s (some q2) (jsMul (some q2) pps)
          (addPos s (some q1) (jsMul (some q1) pps) (blankRec a1)))] := by
    rw [ingestOne]
    simp only [hle2, Bool.false_eq_true, if_false]
    rw [if_neg (by simp)]
    have hlook : lookupA (jsToLower (⟨a2, some q2⟩ : InputRec).address)
        [(jsToLower a1, addPos s (some q1) (jsMul (some q1) pps) (blankRec a1))] =
        some (addPos s (some q1) (jsMul (some q1) pps) (blankRec a1)) := by
      simp [lookupA, hk]
    rw [ensureKey, if_pos (by rw [hlook]; rfl)]
    simp [updateKey, hk]
  refine ⟨addPos s (some q2) (jsMul (some q2) pps)
    (addPos s (some q1) (jsMul (some q1) pps) (blankRec a1)), ?_, ?_, ?_, ?_, ?_, ?_⟩
  · simp only [List.foldl_cons, List.foldl_nil, hstep1, hstep2]
  · rw [getPos_addPos_self]
  · rw [total_shares_addPos, total_shares_addPos]
    simp [blankRec, jsAdd]
  · rw [total_value_addPos, total_value_addPos]
    have : (blankRec a1).total_crvusd_value = some 0 := rfl
    rw [this, jsAdd_zero_left]
  · rw [sources_addPos, sources_addPos]
    have hbl : (blankRec a1).sources = [] := rfl
    rw [hbl]
    simp
  · rw [address_addPos, address_addPos]
    rfl

/-- Witness for C9 at a concrete source, addresses differing in case, and
concrete positive shares. -/
theorem c9_witness :
    (jsToLower "0xaB" = jsToLower "0xAb" ∧ ¬ (2 : ℚ) ≤ 0 ∧ ¬ (3 : ℚ) ≤ 0) ∧
    ∃ r : MRec,
      ([⟨"0xAb", some 2⟩, ⟨"0xaB", some 3⟩] : List InputRec).foldl
          (ingestOne [] (some 1) Src.convex) [] = [(jsToLower "0xAb", r)] ∧
      getPos Src.convex r = some ⟨some 3, jsMul (some 3) (some 1)⟩ ∧
      r.total_shares = some (2 + 3) ∧
      r.total_crvusd_value =
        jsAdd (jsMul (some 2) (some 1)) (jsMul (some 3) (some 1)) ∧
      r.sources = [Src.convex] ∧
      r.address = "0xAb" :=
  ⟨⟨by decide, by decide, by decide⟩,
    c9_duplicate_overwrites_position_totals_accumulate Src.convex "0xAb" "0xaB"
      2 3 (some 1) (by decide) (by decide) (by decide)⟩

end SquidDAO
